import Mathlib

/-!
Shallow embedding of `src/utils/balanceCalculator.ts` from the
ExpenseTracker repository, together with proofs of the specified
properties of its balance-computation and settlement-tracking logic.

Monetary values are modelled as rationals (`ℚ`): the source performs
plain arithmetic on numbers and rounds to two decimal places only at
emission time (`parseFloat(amount.toFixed(2))`), which on exact inputs
is rounding half toward positive infinity at the second decimal.
JavaScript `Map`/`Set` iterate in insertion order, so the participant
universe is modelled as an insertion-ordered duplicate-free list and
the net-amount map as a function built by folding over the expenses.
`Array.prototype.sort` is stable, so the descending sorts are modelled
with the stable `List.mergeSort`.
-/

/-- Field `paidBy` entry: a `{ name, amount }` payer record. -/
structure Payer where
  name : String
  amount : ℚ
deriving Repr, DecidableEq

/-- The fields of `Expense` the calculator reads (`id`, `date`, … are
opaque to the algorithm).  `paidBy` is always the array form; the
source's `getPayers` shim only normalises a legacy string form into
exactly this shape. -/
structure Expense where
  amount : ℚ
  paidBy : List Payer
  splitBetween : List String
deriving Repr, DecidableEq

/-- The `Balance` record emitted by the engine. `from` is a Lean
keyword, hence the field name `from_`. `settledAt` is the optional
ISO-8601 timestamp string. -/
structure Balance where
  from_ : String
  to_ : String
  amount : ℚ
  isSettled : Bool
  settledAt : Option String := none
deriving Repr, DecidableEq

/-- Rounding of `parseFloat(x.toFixed(2))`: to the nearest multiple of
1/100, ties toward the larger value (ECMAScript `toFixed` picks the
larger candidate on a tie), which is Mathlib's `round`. -/
def round2 (q : ℚ) : ℚ := ((q * 100 + 1 / 2).floor : ℚ) / 100

/-- A debtor or creditor entry `{ name, amount }` of the greedy match. -/
structure Party where
  name : String
  amount : ℚ
deriving Repr, DecidableEq

/-- State of one side after a transfer: `debtor.amount -= amount`
followed by `if (debtor.amount === 0) debtorIndex++` — when the
remaining magnitude reaches exactly 0 the index advances past the
entry, otherwise the entry stays (with its new magnitude). -/
def remaining (name : String) (rem : ℚ) (xs : List Party) : List Party :=
  if rem = 0 then xs else ⟨name, rem⟩ :: xs

/-- The `while (debtorIndex < debtors.length && creditorIndex < creditors.length)`
loop of `calculateBalances`: advancing an index is modelled by dropping
the head; in-place mutation `debtor.amount -= amount` that leaves a
nonzero remainder is modelled by replacing the head. -/
def settleLoop : List Party → List Party → List Balance
  | [], _ => []
  | _ :: _, [] => []
  | d :: ds, c :: cs =>
    if d.name = c.name then
      settleLoop ds (c :: cs)
    else
      ⟨d.name, c.name, round2 (min d.amount c.amount), false, none⟩ ::
        settleLoop (remaining d.name (d.amount - min d.amount c.amount) ds)
          (remaining c.name (c.amount - min d.amount c.amount) cs)
termination_by ds cs => ds.length + cs.length
decreasing_by
  · simp only [List.length_cons]; omega
  · have h := min_choice d.amount c.amount
    unfold remaining
    split <;> split <;> simp only [List.length_cons] <;> try omega
    rename_i h1 h2
    rcases h with h | h
    · exact absurd (by rw [h, sub_self]) h1
    · exact absurd (by rw [h, sub_self]) h2

/-- Insertion into the `Set` of participants: JavaScript `Set.add`
keeps the first insertion position. -/
def addParticipant (acc : List String) (p : String) : List String :=
  if p ∈ acc then acc else acc ++ [p]

/-- One `expenses.forEach` step of the participant-collection loop:
first every payer name, then every split member. -/
def expenseParticipants (acc : List String) (e : Expense) : List String :=
  e.splitBetween.foldl addParticipant
    (e.paidBy.foldl (fun a pr => addParticipant a pr.name) acc)

/-- `allParticipants` as an insertion-ordered list. -/
def participantsOf (es : List Expense) : List String :=
  es.foldl expenseParticipants []

/-- One `expenses.forEach` step of the net-amount accumulation: add
each payer's paid amount, then subtract the equal split share once per
occurrence in `splitBetween`. -/
def applyExpense (m : String → ℚ) (e : Expense) : String → ℚ :=
  e.splitBetween.foldl
    (fun m part q =>
      if q = part then m q - e.amount / (e.splitBetween.length : ℚ) else m q)
    (e.paidBy.foldl (fun m pr q => if q = pr.name then m q + pr.amount else m q) m)

/-- The `netAmounts` map after processing all expenses (every key of
interest is initialised to 0 first, so the `|| 0` fallbacks in the
source never fire on participants). -/
def netMap (es : List Expense) : String → ℚ :=
  es.foldl applyExpense (fun _ => 0)

/-- Descending stable sort by `amount`, i.e. `sort((a, b) => b.amount - a.amount)`. -/
def sortByAmountDesc (l : List Party) : List Party :=
  l.mergeSort (fun a b => b.amount ≤ a.amount)

/-- The list of net debtors (`amount < 0`, stored magnitude `|amount|`)
in participant iteration order. -/
def debtorsOf (es : List Expense) : List Party :=
  ((participantsOf es).filter (fun p => netMap es p < 0)).map
    (fun p => ⟨p, |netMap es p|⟩)

/-- The list of net creditors (`amount > 0`) in participant iteration order. -/
def creditorsOf (es : List Expense) : List Party :=
  ((participantsOf es).filter (fun p => 0 < netMap es p)).map
    (fun p => ⟨p, netMap es p⟩)

/-- Embedding of `calculateBalances`. -/
def calculateBalances (es : List Expense) : List Balance :=
  if es = [] then []
  else settleLoop (sortByAmountDesc (debtorsOf es)) (sortByAmountDesc (creditorsOf es))

/-- Embedding of `markBalanceAsSettled`; the `new Date().toISOString()`
timestamp is passed in as `now`. -/
def markBalanceAsSettled (balances : List Balance) (from_ to_ now : String) :
    List Balance :=
  balances.map fun b =>
    if b.from_ == from_ && b.to_ == to_ && !b.isSettled then
      { b with isSettled := true, settledAt := some now }
    else b

/-- Embedding of `getSettledBalances`. -/
def getSettledBalances (balances : List Balance) : List Balance :=
  balances.filter (·.isSettled)

/-- Embedding of `getUnsettledBalances`. -/
def getUnsettledBalances (balances : List Balance) : List Balance :=
  balances.filter (fun b => !b.isSettled)

/-- Embedding of `getTotalSettledAmount` (`filter` then `reduce`). -/
def getTotalSettledAmount (balances : List Balance) : ℚ :=
  (balances.filter (·.isSettled)).foldl (fun sum b => sum + b.amount) 0

/-- Embedding of `getTotalUnsettledAmount`. -/
def getTotalUnsettledAmount (balances : List Balance) : ℚ :=
  (balances.filter (fun b => !b.isSettled)).foldl (fun sum b => sum + b.amount) 0

/-- Result record of `calculateParticipantSummary`. -/
structure ParticipantSummary where
  totalPaid : ℚ
  totalOwed : ℚ
  netAmount : ℚ
  expenseCount : Nat
  isCreditor : Bool
  isDebtor : Bool
  isSettled : Bool
deriving Repr, DecidableEq

/-- The `paidBy.forEach` body of `calculateParticipantSummary`: on a
name match, add the paid amount and bump `expenseCount`. -/
def summaryPayerStep (name : String) (a : ℚ × ℚ × Nat) (pr : Payer) :
    ℚ × ℚ × Nat :=
  if pr.name == name then (a.1 + pr.amount, a.2.1, a.2.2 + 1) else a

/-- The `expenses.forEach` body of `calculateParticipantSummary`: fold
the payers, then add the equal split share when `splitBetween` contains
the name. -/
def summaryExpenseStep (name : String) (acc : ℚ × ℚ × Nat) (e : Expense) :
    ℚ × ℚ × Nat :=
  let acc := e.paidBy.foldl (summaryPayerStep name) acc
  if name ∈ e.splitBetween then
    (acc.1, acc.2.1 + e.amount / (e.splitBetween.length : ℚ), acc.2.2)
  else acc

/-- Embedding of `calculateParticipantSummary`: the `forEach` loops
accumulate `(totalPaid, totalOwed, expenseCount)`. -/
def calculateParticipantSummary (es : List Expense) (name : String) :
    ParticipantSummary :=
  let acc := es.foldl (summaryExpenseStep name) ((0, 0, 0) : ℚ × ℚ × Nat)
  { totalPaid := acc.1
    totalOwed := acc.2.1
    netAmount := acc.1 - acc.2.1
    expenseCount := acc.2.2
    isCreditor := decide (0 < acc.1 - acc.2.1)
    isDebtor := decide (acc.1 - acc.2.1 < 0)
    isSettled := decide (acc.1 - acc.2.1 = 0) }

/-- The greedy loop with an explicit iteration budget: `none` means the
budget ran out while both index ranges were still nonempty.  This is
the vehicle for the termination statement: the loop of
`calculateBalances` finishes within `debtors + creditors` iterations. -/
def settleLoopFuel : Nat → List Party → List Party → Option (List Balance)
  | _, [], _ => some []
  | _, _ :: _, [] => some []
  | 0, _ :: _, _ :: _ => none
  | fuel + 1, d :: ds, c :: cs =>
    if d.name = c.name then settleLoopFuel fuel ds (c :: cs)
    else
      (settleLoopFuel fuel (remaining d.name (d.amount - min d.amount c.amount) ds)
          (remaining c.name (c.amount - min d.amount c.amount) cs)).map
        (⟨d.name, c.name, round2 (min d.amount c.amount), false, none⟩ :: ·)

/-- `calculateBalances` with the loop run on the explicit iteration
budget `debtors.length + creditors.length`. -/
def calculateBalancesFuel (es : List Expense) : Option (List Balance) :=
  if es = [] then some []
  else
    settleLoopFuel
      ((sortByAmountDesc (debtorsOf es)).length +
        (sortByAmountDesc (creditorsOf es)).length)
      (sortByAmountDesc (debtorsOf es)) (sortByAmountDesc (creditorsOf es))

/-- Total amount paid by `p` within one expense: the sum of the
`amount` fields of the `paidBy` entries whose name is `p`. -/
def paidIn (p : String) (e : Expense) : ℚ :=
  ((e.paidBy.filter (fun pr => pr.name = p)).map (·.amount)).sum

/-- Share owed by `p` within one expense as accumulated by the
net-amount loop: the equal split share once per occurrence of `p` in
`splitBetween`. -/
def owedIn (p : String) (e : Expense) : ℚ :=
  ((e.splitBetween.filter (fun q => q = p)).length : ℚ) *
    (e.amount / (e.splitBetween.length : ℚ))

/-- Closed form of the net position of `p` over an expense list. -/
def netAmountOf (es : List Expense) (p : String) : ℚ :=
  (es.map (fun e => paidIn p e - owedIn p e)).sum

/-- Sum of the `amount` fields of the debts directed out of debtor `p`. -/
def debtSumFrom (p : String) (bs : List Balance) : ℚ :=
  ((bs.filter (fun b => b.from_ = p)).map (·.amount)).sum

/-- Number of debts directed out of debtor `p`. -/
def debtCountFrom (p : String) (bs : List Balance) : Nat :=
  (bs.filter (fun b => b.from_ = p)).length

/-- Sum of the `amount` fields of the debts directed into creditor `p`. -/
def debtSumTo (p : String) (bs : List Balance) : ℚ :=
  ((bs.filter (fun b => b.to_ = p)).map (·.amount)).sum

/-- Number of debts directed into creditor `p`. -/
def debtCountTo (p : String) (bs : List Balance) : Nat :=
  (bs.filter (fun b => b.to_ = p)).length

/-- Total amount paid by `name` over a whole expense list
(`totalPaid` of the participant summary). -/
def totalPaidOf (es : List Expense) (name : String) : ℚ :=
  (es.map (paidIn name)).sum

/-- Number of payer-appearances of `name` (`expenseCount` of the
participant summary). -/
def paidCountOf (es : List Expense) (name : String) : Nat :=
  (es.map (fun e => (e.paidBy.filter (fun pr => pr.name = name)).length)).sum

/-- Total share owed by `name` over a whole expense list, counting each
expense once via the `includes` test (`totalOwed` of the participant
summary). -/
def totalOwedOf (es : List Expense) (name : String) : ℚ :=
  (es.map (fun e =>
    if name ∈ e.splitBetween then e.amount / (e.splitBetween.length : ℚ) else 0)).sum

/-- A validly-shaped expense in the sense of the specification: a
non-empty `splitBetween` and payer amounts summing to the expense
amount. -/
def WellFormed (e : Expense) : Prop :=
  e.splitBetween ≠ [] ∧ ((e.paidBy.map (·.amount)).sum = e.amount)

/-- Scenario input: a 300 expense paid by A, split equally among A, B, C. -/
def exScenario1 : List Expense := [⟨300, [⟨"A", 300⟩], ["A", "B", "C"]⟩]

/-- Counterexample input for the 0.01 reconciliation tolerance: d owes
each of a, b, c exactly 0.125, and each emitted debt rounds up to 0.13. -/
def exRounding : List Expense :=
  [⟨1 / 2, [⟨"a", 1 / 8⟩, ⟨"b", 1 / 8⟩, ⟨"c", 1 / 8⟩, ⟨"d", 1 / 8⟩], ["d"]⟩]

/-- Counterexample input for strict positivity of emitted amounts: B
and C each owe 0.001, which rounds to 0.00 at emission. -/
def exTiny : List Expense := [⟨3 / 1000, [⟨"A", 3 / 1000⟩], ["A", "B", "C"]⟩]

/-- Names of the entries of a debtor/creditor list. -/
def partyNames (l : List Party) : List String := l.map (·.name)

/-- Total remaining magnitude of a debtor/creditor list. -/
def partyTotal (l : List Party) : ℚ := (l.map (·.amount)).sum

/-- The executable `round2` agrees with Mathlib's `round` at the second
decimal. -/
theorem round2_eq (q : ℚ) : round2 q = ((round (q * 100) : ℤ) : ℚ) / 100 := by
  rw [round2, round_eq, Rat.floor_def, Rat.floor_def']

/-- Evaluation rule for `round2` at concrete inputs. -/
theorem round2_eq_of (q : ℚ) (n : ℤ) (h1 : (n : ℚ) ≤ q * 100 + 1 / 2)
    (h2 : q * 100 + 1 / 2 < n + 1) : round2 q = (n : ℚ) / 100 := by
  rw [round2_eq, round_eq]
  have : ⌊q * 100 + 1 / 2⌋ = n := by
    rw [Int.floor_eq_iff]; simp_all
  rw [this]

/-- Reassociation of the running `reduce` sum. -/
theorem foldl_add_amount (l : List Balance) (a : ℚ) :
    l.foldl (fun sum b => sum + b.amount) a = a + (l.map (·.amount)).sum := by
  induction l generalizing a with
  | nil => simp
  | cons b l ih => simp [ih, add_assoc]

/-- A Boolean filter and its negation split a mapped sum. -/
theorem sum_map_filter_split (l : List Balance) (p : Balance → Bool)
    (f : Balance → ℚ) :
    ((l.filter p).map f).sum + ((l.filter (fun b => !p b)).map f).sum =
      (l.map f).sum := by
  induction l with
  | nil => simp
  | cons b l ih =>
    cases h : p b <;> simp [List.filter_cons, h, ← ih] <;> ring

/-- C5: `calculateBalances` on the empty expense list returns the empty
list (first line of the source: `if (expenses.length === 0) return [];`). -/
theorem calculateBalances_nil : calculateBalances [] = [] := rfl

/-- C6: `markBalanceAsSettled` returns a list of the same length in
which every position holding an unsettled entry matching `(from, to)`
is replaced by a copy settled at the supplied timestamp, and every
other position is returned unchanged (in particular `from`, `to` and
`amount` are never altered, and the input list itself is untouched —
the function is pure). -/
theorem markBalanceAsSettled_spec (bs : List Balance) (f t now : String) :
    (markBalanceAsSettled bs f t now).length = bs.length ∧
    ∀ i : Nat,
      (markBalanceAsSettled bs f t now)[i]? =
        (bs[i]?).map fun b =>
          if b.from_ = f ∧ b.to_ = t ∧ b.isSettled = false then
            { b with isSettled := true, settledAt := some now }
          else b := by
  constructor
  · simp [markBalanceAsSettled]
  · intro i
    simp only [markBalanceAsSettled, List.getElem?_map]
    cases bs[i]? with
    | none => rfl
    | some b =>
      by_cases h1 : b.from_ = f <;> by_cases h2 : b.to_ = t <;>
        cases h3 : b.isSettled <;> simp [h1, h2, h3]

/-- C7: marking the same `(from, to)` pair twice is idempotent — the
second pass finds every matching entry already settled, so it returns
each entry (including its `settledAt`) unchanged. -/
theorem markBalanceAsSettled_idempotent (bs : List Balance)
    (f t now now' : String) :
    markBalanceAsSettled (markBalanceAsSettled bs f t now) f t now' =
      markBalanceAsSettled bs f t now := by
  unfold markBalanceAsSettled
  rw [List.map_map]
  apply List.map_congr_left
  intro b _
  by_cases h1 : b.from_ = f <;> by_cases h2 : b.to_ = t <;>
    cases h3 : b.isSettled <;> simp [h1, h2, h3]

/-- C8: `getSettledBalances` and `getUnsettledBalances` partition a debt
list — every entry of the list belongs to exactly one of the two, and
nothing else belongs to either. -/
theorem settled_unsettled_partition (bs : List Balance) :
    (∀ b : Balance,
      b ∈ bs ↔ b ∈ getSettledBalances bs ∨ b ∈ getUnsettledBalances bs) ∧
    ∀ b : Balance,
      ¬(b ∈ getSettledBalances bs ∧ b ∈ getUnsettledBalances bs) := by
  constructor
  · intro b
    simp only [getSettledBalances, getUnsettledBalances, List.mem_filter]
    cases h : b.isSettled <;> simp [h]
  · intro b
    simp only [getSettledBalances, getUnsettledBalances, List.mem_filter]
    cases h : b.isSettled <;> simp [h]

/-- C10: the settled and unsettled aggregate sums decompose the total
amount over the whole debt list. -/
theorem totalSettled_add_totalUnsettled (bs : List Balance) :
    getTotalSettledAmount bs + getTotalUnsettledAmount bs =
      (bs.map (·.amount)).sum := by
  rw [getTotalSettledAmount, getTotalUnsettledAmount, foldl_add_amount,
    foldl_add_amount, zero_add, zero_add]
  exact sum_map_filter_split bs (·.isSettled) (·.amount)


/-- Advancing past a zeroed entry shortens a side by one; keeping a
nonzero remainder preserves its length, so a transfer grows the two
sides' total length by at most one entry. -/
theorem remaining_min_length (d c : Party) (ds cs : List Party) :
    (remaining d.name (d.amount - min d.amount c.amount) ds).length +
      (remaining c.name (c.amount - min d.amount c.amount) cs).length ≤
      ds.length + cs.length + 1 := by
  have hle : ∀ (n : String) (r : ℚ) (xs : List Party),
      (remaining n r xs).length ≤ xs.length + 1 := by
    intro n r xs
    unfold remaining
    split <;> simp
  rcases min_choice d.amount c.amount with hm | hm
  · have h1 : remaining d.name (d.amount - min d.amount c.amount) ds = ds := by
      unfold remaining
      rw [if_pos (by rw [hm, sub_self])]
    rw [h1]
    have := hle c.name (c.amount - min d.amount c.amount) cs
    omega
  · have h1 : remaining c.name (c.amount - min d.amount c.amount) cs = cs := by
      unfold remaining
      rw [if_pos (by rw [hm, sub_self])]
    rw [h1]
    have := hle d.name (d.amount - min d.amount c.amount) ds
    omega

/-- The loop returns immediately once the debtor side is exhausted. -/
theorem settleLoop_nil_left (cs : List Party) : settleLoop [] cs = [] := by
  rw [settleLoop]

/-- The loop returns immediately once the creditor side is exhausted. -/
theorem settleLoop_nil_right (d : Party) (ds : List Party) :
    settleLoop (d :: ds) [] = [] := by
  rw [settleLoop]

/-- Within an iteration budget of the two index ranges' total length,
the fueled loop completes and agrees with the total loop: every
iteration either advances the debtor index (same-name guard) or emits a
debt after which the minimum-taking transfer zeroes at least one
party's remaining magnitude, advancing at least one index. -/
theorem settleLoopFuel_eq (fuel : Nat) (ds cs : List Party)
    (h : ds.length + cs.length ≤ fuel) :
    settleLoopFuel fuel ds cs = some (settleLoop ds cs) := by
  induction fuel generalizing ds cs with
  | zero =>
    match ds, cs with
    | [], _ => rw [settleLoop_nil_left]; rfl
    | _ :: _, [] => rw [settleLoop_nil_right]; rfl
    | _ :: _, _ :: _ => simp at h
  | succ fuel ih =>
    match ds, cs with
    | [], _ => rw [settleLoop_nil_left]; rfl
    | _ :: _, [] => rw [settleLoop_nil_right]; rfl
    | d :: ds, c :: cs =>
      rw [settleLoop, settleLoopFuel]
      split
      · exact ih ds (c :: cs) (by simp only [List.length_cons] at h ⊢; omega)
      · have hlen := remaining_min_length d c ds cs
        simp only [List.length_cons] at h
        rw [ih _ _ (by omega), Option.map_some']

/-- C3: for every expense list, the greedy matching loop of
`calculateBalances` terminates within `debtors + creditors` iterations
and produces its result with no failure (the embedding being total,
division by zero and exceptions do not arise on validly-shaped input). -/
theorem calculateBalances_terminates (es : List Expense) :
    calculateBalancesFuel es = some (calculateBalances es) := by
  unfold calculateBalancesFuel calculateBalances
  split
  · rfl
  · exact settleLoopFuel_eq _ _ _ le_rfl

/-- The loop emits at most `debtors + creditors - 1` debts (truncated
subtraction: both sides are 0 when both lists are empty). -/
theorem settleLoop_length (ds cs : List Party) :
    (settleLoop ds cs).length ≤ ds.length + cs.length - 1 := by
  induction ds, cs using settleLoop.induct with
  | case1 cs => rw [settleLoop_nil_left]; simp
  | case2 d ds => rw [settleLoop_nil_right]; simp
  | case3 d ds c cs hname ih =>
    rw [settleLoop, if_pos hname]
    simp only [List.length_cons] at ih ⊢
    omega
  | case4 d ds c cs hname ih =>
    rw [settleLoop, if_neg hname]
    have hlen := remaining_min_length d c ds cs
    simp only [List.length_cons] at ih ⊢
    omega

/-- C4: `calculateBalances` emits at most
`(net debtors) + (net creditors) - 1` debts, with `-` the truncated
subtraction on `ℕ` (when there are neither debtors nor creditors, no
debt is emitted and both sides are 0). -/
theorem calculateBalances_length_bound (es : List Expense) :
    (calculateBalances es).length ≤
      (debtorsOf es).length + (creditorsOf es).length - 1 := by
  unfold calculateBalances
  split
  · simp
  · have h := settleLoop_length (sortByAmountDesc (debtorsOf es))
      (sortByAmountDesc (creditorsOf es))
    have h1 : (sortByAmountDesc (debtorsOf es)).length = (debtorsOf es).length :=
      (List.mergeSort_perm _ _).length_eq
    have h2 :
        (sortByAmountDesc (creditorsOf es)).length = (creditorsOf es).length :=
      (List.mergeSort_perm _ _).length_eq
    rw [h1, h2] at h
    exact h

/-- Closed form of the payer fold of the participant summary: it adds
the matching payers' amounts to `totalPaid` and their number to
`expenseCount`, leaving `totalOwed` alone. -/
theorem summaryPayerStep_foldl (name : String) (prs : List Payer)
    (a : ℚ × ℚ × Nat) :
    prs.foldl (summaryPayerStep name) a =
      (a.1 + paidIn name ⟨0, prs, []⟩, a.2.1,
        a.2.2 + (prs.filter (fun pr => pr.name = name)).length) := by
  induction prs generalizing a with
  | nil => simp [paidIn]
  | cons pr prs ih =>
    by_cases h : pr.name = name <;>
      simp [summaryPayerStep, h, ih, paidIn, List.filter_cons, add_assoc,
        Nat.add_comm]

/-- Closed form of the expense fold of the participant summary. -/
theorem summaryExpenseStep_foldl (name : String) (es : List Expense)
    (a : ℚ × ℚ × Nat) :
    es.foldl (summaryExpenseStep name) a =
      (a.1 + totalPaidOf es name, a.2.1 + totalOwedOf es name,
        a.2.2 + paidCountOf es name) := by
  induction es generalizing a with
  | nil => simp [totalPaidOf, totalOwedOf, paidCountOf]
  | cons e es ih =>
    have hpaid : paidIn name ⟨0, e.paidBy, []⟩ = paidIn name e := by
      simp [paidIn]
    by_cases h : name ∈ e.splitBetween <;>
      simp [summaryExpenseStep, h, ih, summaryPayerStep_foldl, hpaid,
        totalPaidOf, totalOwedOf, paidCountOf, add_assoc]

/-- C9: the participant summary computes `totalPaid` as the sum of the
amounts paid by `name` over all payer entries, `expenseCount` as the
number of such payer-appearances, `totalOwed` as the sum of the equal
split shares of the expenses whose `splitBetween` contains the name,
`netAmount = totalPaid - totalOwed`, with `isCreditor` iff the net is
positive, `isDebtor` iff it is negative and `isSettled` iff it is
exactly zero; consequently a name appearing in no expense gets the
all-zero, settled summary. -/
theorem calculateParticipantSummary_spec (es : List Expense) (name : String) :
    calculateParticipantSummary es name =
      { totalPaid := totalPaidOf es name
        totalOwed := totalOwedOf es name
        netAmount := totalPaidOf es name - totalOwedOf es name
        expenseCount := paidCountOf es name
        isCreditor := decide (0 < totalPaidOf es name - totalOwedOf es name)
        isDebtor := decide (totalPaidOf es name - totalOwedOf es name < 0)
        isSettled := decide (totalPaidOf es name - totalOwedOf es name = 0) } ∧
    ((∀ e ∈ es, (∀ pr ∈ e.paidBy, pr.name ≠ name) ∧ name ∉ e.splitBetween) →
      calculateParticipantSummary es name =
        { totalPaid := 0, totalOwed := 0, netAmount := 0, expenseCount := 0
          isCreditor := false, isDebtor := false, isSettled := true }) := by
  have hmain :
      calculateParticipantSummary es name =
        { totalPaid := totalPaidOf es name
          totalOwed := totalOwedOf es name
          netAmount := totalPaidOf es name - totalOwedOf es name
          expenseCount := paidCountOf es name
          isCreditor := decide (0 < totalPaidOf es name - totalOwedOf es name)
          isDebtor := decide (totalPaidOf es name - totalOwedOf es name < 0)
          isSettled :=
            decide (totalPaidOf es name - totalOwedOf es name = 0) } := by
    unfold calculateParticipantSummary
    rw [summaryExpenseStep_foldl]
    simp
  refine ⟨hmain, fun habs => ?_⟩
  have hpaid : totalPaidOf es name = 0 := by
    unfold totalPaidOf
    rw [List.sum_eq_zero]
    intro x hx
    rw [List.mem_map] at hx
    obtain ⟨e, he, rfl⟩ := hx
    unfold paidIn
    rw [List.filter_eq_nil_iff.mpr, List.map_nil, List.sum_nil]
    intro pr hpr
    simpa using (habs e he).1 pr hpr
  have howed : totalOwedOf es name = 0 := by
    unfold totalOwedOf
    rw [List.sum_eq_zero]
    intro x hx
    rw [List.mem_map] at hx
    obtain ⟨e, he, rfl⟩ := hx
    rw [if_neg (habs e he).2]
  have hcount : paidCountOf es name = 0 := by
    unfold paidCountOf
    rw [List.sum_eq_zero]
    intro x hx
    rw [List.mem_map] at hx
    obtain ⟨e, he, rfl⟩ := hx
    rw [List.filter_eq_nil_iff.mpr, List.length_nil]
    intro pr hpr
    simpa using (habs e he).1 pr hpr
  rw [hmain, hpaid, howed, hcount]
  norm_num

/-- Witness: the participant "Z" appears nowhere in the scenario input,
and the summary theorem yields the all-zero settled summary there. -/
theorem calculateParticipantSummary_spec_witness :
    (∀ e ∈ exScenario1, (∀ pr ∈ e.paidBy, pr.name ≠ "Z") ∧
      "Z" ∉ e.splitBetween) ∧
    calculateParticipantSummary exScenario1 "Z" =
      { totalPaid := 0, totalOwed := 0, netAmount := 0, expenseCount := 0
        isCreditor := false, isDebtor := false, isSettled := true } :=
  ⟨by decide, (calculateParticipantSummary_spec exScenario1 "Z").2 (by decide)⟩

/-- Rounding at two decimals preserves nonnegativity. -/
theorem round2_nonneg (q : ℚ) (h : 0 ≤ q) : 0 ≤ round2 q := by
  rw [round2_eq]
  have h1 : (0 : ℤ) ≤ round (q * 100) := by
    rw [round_eq]
    apply Int.floor_nonneg.mpr
    nlinarith
  positivity

/-- Entries of a post-transfer side are nonnegative when the remainder
and the untouched entries are. -/
theorem remaining_nonneg (n : String) (r : ℚ) (xs : List Party)
    (hr : 0 ≤ r) (hxs : ∀ p ∈ xs, 0 ≤ p.amount) :
    ∀ p ∈ remaining n r xs, 0 ≤ p.amount := by
  intro p hp
  unfold remaining at hp
  split at hp
  · exact hxs p hp
  · rcases List.mem_cons.mp hp with rfl | h
    · exact hr
    · exact hxs p h

/-- Every debt the loop emits from nonnegative sides carries a
nonnegative rounded amount and is created unsettled. -/
theorem settleLoop_nonneg (ds cs : List Party)
    (hds : ∀ p ∈ ds, 0 ≤ p.amount) (hcs : ∀ p ∈ cs, 0 ≤ p.amount) :
    ∀ b ∈ settleLoop ds cs, 0 ≤ b.amount ∧ b.isSettled = false := by
  induction ds, cs using settleLoop.induct with
  | case1 cs => rw [settleLoop_nil_left]; simp
  | case2 d ds => rw [settleLoop_nil_right]; simp
  | case3 d ds c cs hname ih =>
    rw [settleLoop, if_pos hname]
    exact ih (fun p hp => hds p (List.mem_cons_of_mem d hp)) hcs
  | case4 d ds c cs hname ih =>
    rw [settleLoop, if_neg hname]
    intro b hb
    have hd := hds d (List.mem_cons_self d ds)
    have hc := hcs c (List.mem_cons_self c cs)
    rcases List.mem_cons.mp hb with rfl | h
    · refine ⟨round2_nonneg _ (le_min hd hc), rfl⟩
    · exact ih
        (remaining_nonneg _ _ _ (by simp [min_le_left])
          (fun p hp => hds p (List.mem_cons_of_mem d hp)))
        (remaining_nonneg _ _ _ (by simp [min_le_right])
          (fun p hp => hcs p (List.mem_cons_of_mem c hp)))
        b h

/-- C2 (amended): every debt emitted by `calculateBalances` has a
nonnegative `amount` and has `isSettled = false` at creation.  Strict
positivity fails: a positive sub-cent transfer rounds down to exactly
0 at emission (see the counterexample below). -/
theorem calculateBalances_nonneg_unsettled (es : List Expense) :
    ∀ b ∈ calculateBalances es, 0 ≤ b.amount ∧ b.isSettled = false := by
  unfold calculateBalances
  split
  · simp
  · apply settleLoop_nonneg
    · intro p hp
      rw [sortByAmountDesc, (List.mergeSort_perm _ _).mem_iff] at hp
      unfold debtorsOf at hp
      rw [List.mem_map] at hp
      obtain ⟨q, _, rfl⟩ := hp
      exact abs_nonneg _
    · intro p hp
      rw [sortByAmountDesc, (List.mergeSort_perm _ _).mem_iff] at hp
      unfold creditorsOf at hp
      rw [List.mem_map] at hp
      obtain ⟨q, hq, rfl⟩ := hp
      have := List.of_mem_filter hq
      simp only [decide_eq_true_eq] at this
      exact le_of_lt this

/-- Participant universe of the sub-cent example. -/
theorem exTiny_parts : participantsOf exTiny = ["A", "B", "C"] := by decide

/-- Net position of A in the sub-cent example. -/
theorem exTiny_netA : netMap exTiny "A" = 1 / 500 := by
  simp [netMap, applyExpense, exTiny]; norm_num

/-- Net position of B in the sub-cent example. -/
theorem exTiny_netB : netMap exTiny "B" = -(1 / 1000) := by
  simp [netMap, applyExpense, exTiny]; norm_num

/-- Net position of C in the sub-cent example. -/
theorem exTiny_netC : netMap exTiny "C" = -(1 / 1000) := by
  simp [netMap, applyExpense, exTiny]; norm_num

/-- Debtor list of the sub-cent example. -/
theorem exTiny_debtors : debtorsOf exTiny = [⟨"B", 1 / 1000⟩, ⟨"C", 1 / 1000⟩] := by
  simp only [debtorsOf, exTiny_parts, List.filter_cons, List.filter_nil,
    exTiny_netA, exTiny_netB, exTiny_netC]
  norm_num [exTiny_netB, exTiny_netC]

/-- Creditor list of the sub-cent example. -/
theorem exTiny_creditors : creditorsOf exTiny = [⟨"A", 1 / 500⟩] := by
  simp only [creditorsOf, exTiny_parts, List.filter_cons, List.filter_nil,
    exTiny_netA, exTiny_netB, exTiny_netC]
  norm_num [exTiny_netA]

/-- A thousandth rounds to zero at two decimals. -/
theorem round2_milli : round2 (1 / 1000) = 0 := by
  rw [round2_eq_of (1 / 1000) 0 (by norm_num) (by norm_num)]
  norm_num

/-- Full evaluation of the engine on the sub-cent example: both emitted
debts carry amount exactly 0. -/
theorem exTiny_eval :
    calculateBalances exTiny =
      [⟨"B", "A", 0, false, none⟩, ⟨"C", "A", 0, false, none⟩] := by
  unfold calculateBalances
  rw [if_neg (by simp [exTiny]), exTiny_debtors, exTiny_creditors]
  have hd : sortByAmountDesc [(⟨"B", 1 / 1000⟩ : Party), ⟨"C", 1 / 1000⟩] =
      [⟨"B", 1 / 1000⟩, ⟨"C", 1 / 1000⟩] := by
    apply List.mergeSort_of_sorted
    norm_num
  have hc : sortByAmountDesc [(⟨"A", 1 / 500⟩ : Party)] = [⟨"A", 1 / 500⟩] :=
    List.mergeSort_singleton _
  rw [hd, hc]
  norm_num [settleLoop, remaining, min_def, round2_milli]
  simp

/-- C2 counterexample: on the sub-cent input, `calculateBalances` emits
a debt whose amount is not strictly positive. -/
theorem calculateBalances_not_all_pos :
    ¬(∀ b ∈ calculateBalances exTiny, 0 < b.amount ∧ b.isSettled = false) := by
  intro h
  have := (h ⟨"B", "A", 0, false, none⟩ (by rw [exTiny_eval]; simp)).1
  simp at this

/-- A post-transfer side only carries the transferred name and the
untouched names. -/
theorem remaining_names (n : String) (r : ℚ) (xs : List Party) :
    ∀ q ∈ partyNames (remaining n r xs), q = n ∨ q ∈ partyNames xs := by
  intro q hq
  unfold remaining at hq
  split at hq
  · exact Or.inr hq
  · rcases List.mem_cons.mp hq with h | h
    · exact Or.inl h
    · exact Or.inr h

/-- A transfer conserves a side's total magnitude minus the amount
moved: the dropped-entry case drops exactly a zero remainder. -/
theorem partyTotal_remaining (n : String) (r : ℚ) (xs : List Party) :
    partyTotal (remaining n r xs) = r + partyTotal xs := by
  unfold remaining
  split
  · simp_all [partyTotal]
  · simp [partyTotal]

/-- Positivity of a side is preserved by a transfer (a zero remainder
is dropped rather than kept). -/
theorem remaining_pos (n : String) (r : ℚ) (xs : List Party)
    (hr : 0 ≤ r) (hxs : ∀ p ∈ xs, 0 < p.amount) :
    ∀ p ∈ remaining n r xs, 0 < p.amount := by
  intro p hp
  unfold remaining at hp
  split at hp
  · exact hxs p hp
  · rcases List.mem_cons.mp hp with rfl | h
    · rename_i hne
      exact lt_of_le_of_ne hr (Ne.symm hne)
    · exact hxs p h

/-- Every emitted debt points from a debtor-side name to a
creditor-side name. -/
theorem settleLoop_mem_names (ds cs : List Party) :
    ∀ b ∈ settleLoop ds cs,
      b.from_ ∈ partyNames ds ∧ b.to_ ∈ partyNames cs := by
  induction ds, cs using settleLoop.induct with
  | case1 cs => rw [settleLoop_nil_left]; simp
  | case2 d ds => rw [settleLoop_nil_right]; simp
  | case3 d ds c cs hname ih =>
    rw [settleLoop, if_pos hname]
    intro b hb
    exact ⟨List.mem_cons_of_mem _ (ih b hb).1, (ih b hb).2⟩
  | case4 d ds c cs hname ih =>
    rw [settleLoop, if_neg hname]
    intro b hb
    rcases List.mem_cons.mp hb with rfl | h
    · exact ⟨by simp [partyNames], by simp [partyNames]⟩
    · constructor
      · rcases remaining_names _ _ _ _ (ih b h).1 with heq | hmem
        · simp [partyNames, heq]
        · exact List.mem_cons_of_mem _ hmem
      · rcases remaining_names _ _ _ _ (ih b h).2 with heq | hmem
        · simp [partyNames, heq]
        · exact List.mem_cons_of_mem _ hmem

/-- A name absent from the debtor side is the source of no emitted
debt. -/
theorem debtSumFrom_of_not_mem (p : String) (ds cs : List Party)
    (hp : p ∉ partyNames ds) :
    debtSumFrom p (settleLoop ds cs) = 0 ∧
      debtCountFrom p (settleLoop ds cs) = 0 := by
  have hfil : (settleLoop ds cs).filter (fun b => b.from_ = p) = [] := by
    rw [List.filter_eq_nil_iff]
    intro b hb
    simp only [decide_eq_true_eq]
    intro heq
    exact hp (heq ▸ (settleLoop_mem_names ds cs b hb).1)
  unfold debtSumFrom debtCountFrom
  rw [hfil]
  simp

/-- A name absent from the creditor side is the target of no emitted
debt. -/
theorem debtSumTo_of_not_mem (p : String) (ds cs : List Party)
    (hp : p ∉ partyNames cs) :
    debtSumTo p (settleLoop ds cs) = 0 ∧
      debtCountTo p (settleLoop ds cs) = 0 := by
  have hfil : (settleLoop ds cs).filter (fun b => b.to_ = p) = [] := by
    rw [List.filter_eq_nil_iff]
    intro b hb
    simp only [decide_eq_true_eq]
    intro heq
    exact hp (heq ▸ (settleLoop_mem_names ds cs b hb).2)
  unfold debtSumTo debtCountTo
  rw [hfil]
  simp

/-- Emission-time rounding moves an amount by at most half a cent. -/
theorem round2_close (q : ℚ) : |round2 q - q| ≤ 1 / 200 := by
  rw [round2_eq]
  have h := abs_sub_round (q * 100)
  rw [abs_sub_comm] at h
  have heq : ((round (q * 100) : ℤ) : ℚ) / 100 - q =
      (((round (q * 100) : ℤ) : ℚ) - q * 100) / 100 := by
    ring
  rw [heq, abs_div]
  rw [show |(100 : ℚ)| = 100 by norm_num]
  linarith

/-- Head unfolding of the debtor-side sum. -/
theorem debtSumFrom_cons (p : String) (b : Balance) (bs : List Balance) :
    debtSumFrom p (b :: bs) =
      (if b.from_ = p then b.amount else 0) + debtSumFrom p bs := by
  unfold debtSumFrom
  rw [List.filter_cons]
  by_cases h : b.from_ = p <;> simp [h]

/-- Head unfolding of the debtor-side count. -/
theorem debtCountFrom_cons (p : String) (b : Balance) (bs : List Balance) :
    debtCountFrom p (b :: bs) =
      (if b.from_ = p then 1 else 0) + debtCountFrom p bs := by
  unfold debtCountFrom
  rw [List.filter_cons]
  by_cases h : b.from_ = p <;> simp [h, Nat.add_comm]

/-- Head unfolding of the creditor-side sum. -/
theorem debtSumTo_cons (p : String) (b : Balance) (bs : List Balance) :
    debtSumTo p (b :: bs) =
      (if b.to_ = p then b.amount else 0) + debtSumTo p bs := by
  unfold debtSumTo
  rw [List.filter_cons]
  by_cases h : b.to_ = p <;> simp [h]

/-- Head unfolding of the creditor-side count. -/
theorem debtCountTo_cons (p : String) (b : Balance) (bs : List Balance) :
    debtCountTo p (b :: bs) =
      (if b.to_ = p then 1 else 0) + debtCountTo p bs := by
  unfold debtCountTo
  rw [List.filter_cons]
  by_cases h : b.to_ = p <;> simp [h, Nat.add_comm]

/-- Names of a cons side. -/
theorem partyNames_cons (x : Party) (xs : List Party) :
    partyNames (x :: xs) = x.name :: partyNames xs := rfl

/-- Total of a cons side. -/
theorem partyTotal_cons (x : Party) (xs : List Party) :
    partyTotal (x :: xs) = x.amount + partyTotal xs := by
  simp [partyTotal]

/-- A side of positive entries has a nonnegative total. -/
theorem partyTotal_nonneg (xs : List Party) (h : ∀ p ∈ xs, 0 < p.amount) :
    0 ≤ partyTotal xs := by
  induction xs with
  | nil => simp [partyTotal]
  | cons x xs ih =>
    rw [partyTotal_cons]
    have h1 := h x (List.mem_cons_self x xs)
    have h2 := ih fun p hp => h p (List.mem_cons_of_mem x hp)
    linarith

/-- A side of positive entries with total zero is empty. -/
theorem eq_nil_of_partyTotal_eq_zero (xs : List Party)
    (h : ∀ p ∈ xs, 0 < p.amount) (h0 : partyTotal xs = 0) : xs = [] := by
  cases xs with
  | nil => rfl
  | cons x xs =>
    exfalso
    have h1 := h x (List.mem_cons_self x xs)
    have h2 := partyTotal_nonneg xs fun p hp => h p (List.mem_cons_of_mem x hp)
    rw [partyTotal_cons] at h0
    linarith

/-- Untouched entries survive a transfer. -/
theorem mem_remaining_of_mem (n : String) (r : ℚ) (xs : List Party)
    (p : Party) (hp : p ∈ xs) : p ∈ remaining n r xs := by
  unfold remaining
  split
  · exact hp
  · exact List.mem_cons_of_mem _ hp

/-- The names of a post-transfer side, by cases on the remainder. -/
theorem partyNames_remaining (n : String) (r : ℚ) (xs : List Party) :
    partyNames (remaining n r xs) = partyNames xs ∨
      partyNames (remaining n r xs) = n :: partyNames xs := by
  unfold remaining
  split
  · exact Or.inl rfl
  · exact Or.inr rfl

/-- Conservation of the greedy loop: with duplicate-free, disjoint
names, strictly positive magnitudes and equal totals on the two sides,
the rounded debts emitted out of each debtor reconstruct that debtor's
magnitude up to half a cent per emitted debt, and symmetrically for
each creditor. -/
theorem settleLoop_conservation (ds cs : List Party) :
    (partyNames ds).Nodup → (partyNames cs).Nodup →
    (∀ q ∈ partyNames ds, q ∉ partyNames cs) →
    (∀ p ∈ ds, 0 < p.amount) → (∀ p ∈ cs, 0 < p.amount) →
    partyTotal ds = partyTotal cs →
    (∀ e ∈ ds,
      |debtSumFrom e.name (settleLoop ds cs) - e.amount| ≤
        (debtCountFrom e.name (settleLoop ds cs) : ℚ) / 200) ∧
    (∀ e ∈ cs,
      |debtSumTo e.name (settleLoop ds cs) - e.amount| ≤
        (debtCountTo e.name (settleLoop ds cs) : ℚ) / 200) := by
  induction ds, cs using settleLoop.induct with
  | case1 cs =>
    intro _ _ _ _ hpc htot
    rw [settleLoop_nil_left]
    have hnil : cs = [] :=
      eq_nil_of_partyTotal_eq_zero cs hpc
        (by simpa [partyTotal] using htot.symm)
    subst hnil
    simp
  | case2 d ds =>
    intro _ _ _ hpd _ htot
    exfalso
    have hnil : d :: ds = [] :=
      eq_nil_of_partyTotal_eq_zero _ hpd (by simpa [partyTotal] using htot)
    simp at hnil
  | case3 d ds c cs hname ih =>
    intro _ _ hdisj _ _ _
    exfalso
    refine hdisj d.name (by simp [partyNames_cons]) ?_
    rw [partyNames_cons, hname]
    exact List.mem_cons_self _ _
  | case4 d ds c cs hname ih =>
    intro hnd hnc hdisj hpd hpc htot
    rw [settleLoop, if_neg hname]
    have hd0 := hpd d (List.mem_cons_self d ds)
    have hc0 := hpc c (List.mem_cons_self c cs)
    have hmd : min d.amount c.amount ≤ d.amount := min_le_left _ _
    have hmc : min d.amount c.amount ≤ c.amount := min_le_right _ _
    rw [partyNames_cons] at hnd hnc
    have hndt := (List.nodup_cons.mp hnd).2
    have hnct := (List.nodup_cons.mp hnc).2
    have hdn_notin := (List.nodup_cons.mp hnd).1
    have hcn_notin := (List.nodup_cons.mp hnc).1
    have hnd' :
        (partyNames
          (remaining d.name (d.amount - min d.amount c.amount) ds)).Nodup := by
      rcases partyNames_remaining d.name (d.amount - min d.amount c.amount) ds
        with h | h <;> rw [h]
      · exact hndt
      · exact List.nodup_cons.mpr ⟨hdn_notin, hndt⟩
    have hnc' :
        (partyNames
          (remaining c.name (c.amount - min d.amount c.amount) cs)).Nodup := by
      rcases partyNames_remaining c.name (c.amount - min d.amount c.amount) cs
        with h | h <;> rw [h]
      · exact hnct
      · exact List.nodup_cons.mpr ⟨hcn_notin, hnct⟩
    have hdisj' :
        ∀ q ∈ partyNames (remaining d.name (d.amount - min d.amount c.amount) ds),
          q ∉ partyNames (remaining c.name (c.amount - min d.amount c.amount) cs) := by
      intro q hq hq'
      have hq1 : q ∈ partyNames (d :: ds) := by
        rw [partyNames_cons]
        rcases remaining_names _ _ _ q hq with h | h
        · exact h ▸ List.mem_cons_self _ _
        · exact List.mem_cons_of_mem _ h
      have hq2 : q ∈ partyNames (c :: cs) := by
        rw [partyNames_cons]
        rcases remaining_names _ _ _ q hq' with h | h
        · exact h ▸ List.mem_cons_self _ _
        · exact List.mem_cons_of_mem _ h
      exact hdisj q hq1 hq2
    have hpd' :
        ∀ p ∈ remaining d.name (d.amount - min d.amount c.amount) ds,
          0 < p.amount :=
      remaining_pos _ _ _ (by linarith)
        (fun p hp => hpd p (List.mem_cons_of_mem d hp))
    have hpc' :
        ∀ p ∈ remaining c.name (c.amount - min d.amount c.amount) cs,
          0 < p.amount :=
      remaining_pos _ _ _ (by linarith)
        (fun p hp => hpc p (List.mem_cons_of_mem c hp))
    have htot' :
        partyTotal (remaining d.name (d.amount - min d.amount c.amount) ds) =
          partyTotal (remaining c.name (c.amount - min d.amount c.amount) cs) := by
      rw [partyTotal_remaining, partyTotal_remaining]
      rw [partyTotal_cons, partyTotal_cons] at htot
      linarith
    have IH := ih hnd' hnc' hdisj' hpd' hpc' htot'
    constructor
    · intro e he
      rcases List.mem_cons.mp he with rfl | he'
      · rw [debtSumFrom_cons, debtCountFrom_cons, if_pos rfl, if_pos rfl]
        by_cases hrem : e.amount - min e.amount c.amount = 0
        · have hds' :
              remaining e.name (e.amount - min e.amount c.amount) ds = ds := by
            unfold remaining
            rw [if_pos hrem]
          rw [hds'] at IH ⊢
          have hz := debtSumFrom_of_not_mem e.name ds
            (remaining c.name (c.amount - min e.amount c.amount) cs) hdn_notin
          rw [hz.1, hz.2]
          have hea : e.amount = min e.amount c.amount := by linarith
          have := round2_close (min e.amount c.amount)
          rw [show round2 (min e.amount c.amount) + 0 - e.amount =
            round2 (min e.amount c.amount) - min e.amount c.amount by
              rw [← hea]; ring]
          push_cast
          linarith
        · have hds' :
              remaining e.name (e.amount - min e.amount c.amount) ds =
                ⟨e.name, e.amount - min e.amount c.amount⟩ :: ds := by
            unfold remaining
            rw [if_neg hrem]
          rw [hds'] at IH
          have hmem :
              (⟨e.name, e.amount - min e.amount c.amount⟩ : Party) ∈
                (⟨e.name, e.amount - min e.amount c.amount⟩ : Party) :: ds :=
            List.mem_cons_self _ _
          have IH1 := IH.1 _ hmem
          rw [← hds'] at IH1
          have hkey :
              round2 (min e.amount c.amount) +
                debtSumFrom e.name
                  (settleLoop
                    (remaining e.name (e.amount - min e.amount c.amount) ds)
                    (remaining c.name (c.amount - min e.amount c.amount) cs)) -
                e.amount =
              (round2 (min e.amount c.amount) - min e.amount c.amount) +
                (debtSumFrom e.name
                  (settleLoop
                    (remaining e.name (e.amount - min e.amount c.amount) ds)
                    (remaining c.name (c.amount - min e.amount c.amount) cs)) -
                  (e.amount - min e.amount c.amount)) := by
            ring
          rw [hkey]
          have h1 := abs_add
            (round2 (min e.amount c.amount) - min e.amount c.amount)
            (debtSumFrom e.name
              (settleLoop
                (remaining e.name (e.amount - min e.amount c.amount) ds)
                (remaining c.name (c.amount - min e.amount c.amount) cs)) -
              (e.amount - min e.amount c.amount))
          have h2 := round2_close (min e.amount c.amount)
          push_cast at IH1 ⊢
          linarith
      · have hne : d.name ≠ e.name := by
          intro h
          exact hdn_notin (h ▸ List.mem_map_of_mem (·.name) he')
        rw [debtSumFrom_cons, debtCountFrom_cons, if_neg hne, if_neg hne]
        have hmem :
            e ∈ remaining d.name (d.amount - min d.amount c.amount) ds :=
          mem_remaining_of_mem _ _ _ _ he'
        have IH1 := IH.1 e hmem
        push_cast at IH1 ⊢
        simpa using IH1
    · intro e he
      rcases List.mem_cons.mp he with rfl | he'
      · rw [debtSumTo_cons, debtCountTo_cons, if_pos rfl, if_pos rfl]
        by_cases hrem : e.amount - min d.amount e.amount = 0
        · have hcs' :
              remaining e.name (e.amount - min d.amount e.amount) cs = cs := by
            unfold remaining
            rw [if_pos hrem]
          rw [hcs'] at IH ⊢
          have hz := debtSumTo_of_not_mem e.name
            (remaining d.name (d.amount - min d.amount e.amount) ds) cs
            hcn_notin
          rw [hz.1, hz.2]
          have hea : e.amount = min d.amount e.amount := by linarith
          have := round2_close (min d.amount e.amount)
          rw [show round2 (min d.amount e.amount) + 0 - e.amount =
            round2 (min d.amount e.amount) - min d.amount e.amount by
              rw [← hea]; ring]
          push_cast
          linarith
        · have hcs' :
              remaining e.name (e.amount - min d.amount e.amount) cs =
                ⟨e.name, e.amount - min d.amount e.amount⟩ :: cs := by
            unfold remaining
            rw [if_neg hrem]
          rw [hcs'] at IH
          have hmem :
              (⟨e.name, e.amount - min d.amount e.amount⟩ : Party) ∈
                (⟨e.name, e.amount - min d.amount e.amount⟩ : Party) :: cs :=
            List.mem_cons_self _ _
          have IH1 := IH.2 _ hmem
          rw [← hcs'] at IH1
          have hkey :
              round2 (min d.amount e.amount) +
                debtSumTo e.name
                  (settleLoop
                    (remaining d.name (d.amount - min d.amount e.amount) ds)
                    (remaining e.name (e.amount - min d.amount e.amount) cs)) -
                e.amount =
              (round2 (min d.amount e.amount) - min d.amount e.amount) +
                (debtSumTo e.name
                  (settleLoop
                    (remaining d.name (d.amount - min d.amount e.amount) ds)
                    (remaining e.name (e.amount - min d.amount e.amount) cs)) -
                  (e.amount - min d.amount e.amount)) := by
            ring
          rw [hkey]
          have h1 := abs_add
            (round2 (min d.amount e.amount) - min d.amount e.amount)
            (debtSumTo e.name
              (settleLoop
                (remaining d.name (d.amount - min d.amount e.amount) ds)
                (remaining e.name (e.amount - min d.amount e.amount) cs)) -
              (e.amount - min d.amount e.amount))
          have h2 := round2_close (min d.amount e.amount)
          push_cast at IH1 ⊢
          linarith
      · have hne : c.name ≠ e.name := by
          intro h
          exact hcn_notin (h ▸ List.mem_map_of_mem (·.name) he')
        rw [debtSumTo_cons, debtCountTo_cons, if_neg hne, if_neg hne]
        have hmem :
            e ∈ remaining c.name (c.amount - min d.amount c.amount) cs :=
          mem_remaining_of_mem _ _ _ _ he'
        have IH1 := IH.2 e hmem
        push_cast at IH1 ⊢
        simpa using IH1

/-- Pointwise value of the payer accumulation within one expense. -/
theorem payerFold_apply (prs : List Payer) (m : String → ℚ) (p : String) :
    (prs.foldl (fun m pr q => if q = pr.name then m q + pr.amount else m q) m) p =
      m p + ((prs.filter (fun pr => pr.name = p)).map (·.amount)).sum := by
  induction prs generalizing m with
  | nil => simp
  | cons pr prs ih =>
    rw [List.foldl_cons, ih, List.filter_cons]
    by_cases h : pr.name = p
    · simp [h, add_assoc]
    · simp [h, Ne.symm h]

/-- Pointwise value of the split-share accumulation within one expense. -/
theorem splitFold_apply (xs : List String) (s : ℚ) (m : String → ℚ) (p : String) :
    (xs.foldl (fun m part q => if q = part then m q - s else m q) m) p =
      m p - ((xs.filter (fun q => q = p)).length : ℚ) * s := by
  induction xs generalizing m with
  | nil => simp
  | cons x xs ih =>
    rw [List.foldl_cons, ih, List.filter_cons]
    by_cases h : x = p
    · simp [h]
      ring
    · simp [h, Ne.symm h]

/-- One expense moves `p`'s net amount by its paid total minus its
owed share. -/
theorem applyExpense_apply (m : String → ℚ) (e : Expense) (p : String) :
    applyExpense m e p = m p + (paidIn p e - owedIn p e) := by
  unfold applyExpense paidIn owedIn
  rw [splitFold_apply, payerFold_apply]
  ring

/-- The accumulated net map agrees with the closed-form net position. -/
theorem netMap_eq (es : List Expense) (p : String) :
    netMap es p = netAmountOf es p := by
  have hgen : ∀ m : String → ℚ,
      (es.foldl applyExpense m) p = m p + netAmountOf es p := by
    induction es with
    | nil => intro m; simp [netAmountOf]
    | cons e es ih =>
      intro m
      rw [List.foldl_cons, ih, applyExpense_apply]
      simp [netAmountOf]
      ring
  rw [netMap, hgen]
  simp

/-- `Set.add` keeps existing members. -/
theorem addParticipant_subset (acc : List String) (p : String) :
    acc ⊆ addParticipant acc p := by
  unfold addParticipant
  split
  · exact fun q hq => hq
  · exact fun q hq => List.mem_append_left _ hq

/-- `Set.add` contains the added element. -/
theorem mem_addParticipant (acc : List String) (p : String) :
    p ∈ addParticipant acc p := by
  unfold addParticipant
  split
  · assumption
  · simp

/-- `Set.add` keeps the collection duplicate-free. -/
theorem addParticipant_nodup (acc : List String) (p : String)
    (h : acc.Nodup) : (addParticipant acc p).Nodup := by
  unfold addParticipant
  split
  · exact h
  · rename_i hn
    rw [List.nodup_append]
    refine ⟨h, List.nodup_singleton p, ?_⟩
    intro a ha hmem
    rw [List.mem_singleton] at hmem
    exact hn (hmem ▸ ha)

/-- Folding insertions keeps existing members. -/
theorem foldl_addParticipant_subset (l : List String) (acc : List String) :
    acc ⊆ l.foldl addParticipant acc := by
  induction l generalizing acc with
  | nil => exact fun q hq => hq
  | cons x l ih =>
    exact fun q hq =>
      ih (addParticipant acc x) (addParticipant_subset acc x hq)

/-- Folding insertions collects every element of the list. -/
theorem mem_foldl_addParticipant (l : List String) (acc : List String)
    (x : String) (h : x ∈ l) : x ∈ l.foldl addParticipant acc := by
  induction l generalizing acc with
  | nil => simp at h
  | cons y l ih =>
    rcases List.mem_cons.mp h with rfl | h
    · exact foldl_addParticipant_subset l _ (mem_addParticipant acc x)
    · exact ih _ h

/-- Folding insertions keeps the collection duplicate-free. -/
theorem foldl_addParticipant_nodup (l : List String) (acc : List String)
    (h : acc.Nodup) : (l.foldl addParticipant acc).Nodup := by
  induction l generalizing acc with
  | nil => exact h
  | cons x l ih => exact ih _ (addParticipant_nodup acc x h)

/-- The payer fold of the participant collection, via the payer names. -/
theorem expenseParticipants_eq (acc : List String) (e : Expense) :
    expenseParticipants acc e =
      e.splitBetween.foldl addParticipant
        ((e.paidBy.map (·.name)).foldl addParticipant acc) := by
  unfold expenseParticipants
  rw [List.foldl_map]

/-- One collection step keeps existing members. -/
theorem expenseParticipants_subset (acc : List String) (e : Expense) :
    acc ⊆ expenseParticipants acc e := by
  rw [expenseParticipants_eq]
  exact fun q hq =>
    foldl_addParticipant_subset _ _
      (foldl_addParticipant_subset _ _ hq)

/-- The collection fold keeps existing members. -/
theorem foldl_expenseParticipants_subset (es : List Expense)
    (acc : List String) : acc ⊆ es.foldl expenseParticipants acc := by
  induction es generalizing acc with
  | nil => exact fun q hq => hq
  | cons e es ih =>
    exact fun q hq => ih _ (expenseParticipants_subset acc e hq)

/-- The participant universe is duplicate-free. -/
theorem participantsOf_nodup (es : List Expense) :
    (participantsOf es).Nodup := by
  have hgen : ∀ acc : List String, acc.Nodup →
      (es.foldl expenseParticipants acc).Nodup := by
    induction es with
    | nil => exact fun acc h => h
    | cons e es ih =>
      intro acc h
      refine ih _ ?_
      rw [expenseParticipants_eq]
      exact foldl_addParticipant_nodup _ _ (foldl_addParticipant_nodup _ _ h)
  exact hgen [] List.nodup_nil

/-- Every payer name belongs to the participant universe. -/
theorem payer_mem_participantsOf (es : List Expense) (e : Expense)
    (he : e ∈ es) (pr : Payer) (hpr : pr ∈ e.paidBy) :
    pr.name ∈ participantsOf es := by
  have hgen : ∀ acc : List String,
      pr.name ∈ es.foldl expenseParticipants acc := by
    induction es with
    | nil => simp at he
    | cons e' es ih =>
      intro acc
      rcases List.mem_cons.mp he with rfl | he' 
      · refine foldl_expenseParticipants_subset es _ ?_
        rw [expenseParticipants_eq]
        refine foldl_addParticipant_subset _ _ ?_
        exact mem_foldl_addParticipant _ _ _
          (List.mem_map_of_mem (·.name) hpr)
      · exact ih he' _
  exact hgen []

/-- Every split member belongs to the participant universe. -/
theorem split_mem_participantsOf (es : List Expense) (e : Expense)
    (he : e ∈ es) (q : String) (hq : q ∈ e.splitBetween) :
    q ∈ participantsOf es := by
  have hgen : ∀ acc : List String,
      q ∈ es.foldl expenseParticipants acc := by
    induction es with
    | nil => simp at he
    | cons e' es ih =>
      intro acc
      rcases List.mem_cons.mp he with rfl | he'
      · refine foldl_expenseParticipants_subset es _ ?_
        rw [expenseParticipants_eq]
        exact mem_foldl_addParticipant _ _ _ hq
      · exact ih he' _
  exact hgen []

/-- Pointwise addition splits a mapped sum. -/
theorem sum_map_add {α : Type} (l : List α) (g h : α → ℚ) :
    (l.map (fun x => g x + h x)).sum = (l.map g).sum + (l.map h).sum := by
  induction l with
  | nil => simp
  | cons x l ih => simp [ih]; ring

/-- Pointwise subtraction splits a mapped sum. -/
theorem sum_map_sub {α : Type} (l : List α) (g h : α → ℚ) :
    (l.map (fun x => g x - h x)).sum = (l.map g).sum - (l.map h).sum := by
  induction l with
  | nil => simp
  | cons x l ih => simp [ih]; ring

/-- A mapped constant sums to length times the constant. -/
theorem sum_map_const {α : Type} (l : List α) (c : ℚ) :
    (l.map (fun _ => c)).sum = (l.length : ℚ) * c := by
  induction l with
  | nil => simp
  | cons x l ih => simp [ih]; ring

/-- Over a duplicate-free index list, an indicator sum collapses to
its single hit. -/
theorem sum_map_single (parts : List String) (x : String) (v : ℚ)
    (hnd : parts.Nodup) (hx : x ∈ parts) :
    (parts.map (fun p => if x = p then v else 0)).sum = v := by
  induction parts with
  | nil => simp at hx
  | cons q ps ih =>
    rw [List.nodup_cons] at hnd
    by_cases h : x = q
    · rw [List.map_cons, List.sum_cons, if_pos h]
      have hz : (ps.map (fun p => if x = p then v else 0)).sum = 0 := by
        apply List.sum_eq_zero
        intro y hy
        rw [List.mem_map] at hy
        obtain ⟨p, hp, rfl⟩ := hy
        exact if_neg (show x ≠ p from fun hc => hnd.1 ((hc.symm.trans h) ▸ hp))
      rw [hz, add_zero]
    · have hx' : x ∈ ps := by
        rcases List.mem_cons.mp hx with rfl | hx' 
        · exact absurd rfl h
        · exact hx'
      simp [h, ih hnd.2 hx']

/-- Fibre decomposition of a mapped sum over a duplicate-free index
list covering all keys. -/
theorem sum_fiber {α : Type} (parts : List String) (l : List α)
    (key : α → String) (f : α → ℚ) (hnd : parts.Nodup)
    (hcov : ∀ x ∈ l, key x ∈ parts) :
    (parts.map (fun p => ((l.filter (fun x => key x = p)).map f).sum)).sum =
      (l.map f).sum := by
  induction l with
  | nil => simp
  | cons x l ih =>
    have hstep :
        (parts.map (fun p =>
          (((x :: l).filter (fun y => key y = p)).map f).sum)) =
        (parts.map (fun p =>
          (if key x = p then f x else 0) +
            ((l.filter (fun y => key y = p)).map f).sum)) := by
      apply List.map_congr_left
      intro p _
      rw [List.filter_cons]
      by_cases h : key x = p
      · simp [h]
      · simp [h]
    rw [hstep, sum_map_add, sum_map_single parts (key x) (f x) hnd
      (hcov x (List.mem_cons_self x l)),
      ih (fun y hy => hcov y (List.mem_cons_of_mem x hy))]
    simp

/-- Exchange of the two mapped sums. -/
theorem sum_map_swap {α β : Type} (l1 : List α) (l2 : List β)
    (f : α → β → ℚ) :
    (l1.map (fun a => (l2.map (fun b => f a b)).sum)).sum =
      (l2.map (fun b => (l1.map (fun a => f a b)).sum)).sum := by
  induction l1 with
  | nil => simp
  | cons a l1 ih =>
    rw [List.map_cons, List.sum_cons, ih, ← sum_map_add]
    simp

/-- Under well-formed expenses the participants' net positions sum to
zero: each expense contributes its payer total minus its full amount. -/
theorem sum_net_eq_zero (es : List Expense)
    (hwf : ∀ e ∈ es, WellFormed e) :
    ((participantsOf es).map (netMap es)).sum = 0 := by
  have h1 : ((participantsOf es).map (netMap es)).sum =
      ((participantsOf es).map (netAmountOf es)).sum := by
    apply congrArg
    apply List.map_congr_left
    intro p _
    exact netMap_eq es p
  rw [h1]
  unfold netAmountOf
  rw [sum_map_swap]
  apply List.sum_eq_zero
  intro x hx
  rw [List.mem_map] at hx
  obtain ⟨e, he, rfl⟩ := hx
  rw [sum_map_sub]
  have hpaid : ((participantsOf es).map (fun p => paidIn p e)).sum =
      (e.paidBy.map (·.amount)).sum := by
    unfold paidIn
    exact sum_fiber (participantsOf es) e.paidBy (·.name) (·.amount)
      (participantsOf_nodup es)
      (fun pr hpr => payer_mem_participantsOf es e he pr hpr)
  have howed : ((participantsOf es).map (fun p => owedIn p e)).sum =
      e.amount := by
    unfold owedIn
    have hconst : ∀ p : String,
        ((e.splitBetween.filter (fun q => q = p)).length : ℚ) *
          (e.amount / (e.splitBetween.length : ℚ)) =
        ((e.splitBetween.filter (fun q => q = p)).map
          (fun _ => e.amount / (e.splitBetween.length : ℚ))).sum := by
      intro p
      rw [sum_map_const]
    have h2 : ((participantsOf es).map (fun p =>
        ((e.splitBetween.filter (fun q => q = p)).length : ℚ) *
          (e.amount / (e.splitBetween.length : ℚ)))).sum =
        ((participantsOf es).map (fun p =>
          ((e.splitBetween.filter (fun q => q = p)).map
            (fun _ => e.amount / (e.splitBetween.length : ℚ))).sum)).sum := by
      apply congrArg
      exact List.map_congr_left fun p _ => hconst p
    rw [h2, sum_fiber (participantsOf es) e.splitBetween (fun q => q)
      (fun _ => e.amount / (e.splitBetween.length : ℚ))
      (participantsOf_nodup es)
      (fun q hq => split_mem_participantsOf es e he q hq),
      sum_map_const]
    have hne : (e.splitBetween.length : ℚ) ≠ 0 := by
      have := (hwf e he).1
      simp [List.length_eq_zero]
      intro hc
      exact this hc
    field_simp
  rw [hpaid, howed, (hwf e he).2]
  ring

/-- Negation distributes over a mapped sum. -/
theorem sum_map_neg {α : Type} (l : List α) (g : α → ℚ) :
    (l.map (fun x => -g x)).sum = -(l.map g).sum := by
  induction l with
  | nil => simp
  | cons x l ih => simp [ih]; ring

/-- A mapped sum splits into its negative-value and positive-value
fibres (zero values contribute nothing). -/
theorem sum_split_sign (parts : List String) (g : String → ℚ) :
    (parts.map g).sum =
      ((parts.filter (fun p => g p < 0)).map g).sum +
        ((parts.filter (fun p => 0 < g p)).map g).sum := by
  induction parts with
  | nil => simp
  | cons q ps ih =>
    rw [List.map_cons, List.sum_cons, List.filter_cons, List.filter_cons]
    rcases lt_trichotomy (g q) 0 with h | h | h
    · rw [if_pos (by simpa using h), if_neg (by simp; linarith)]
      rw [List.map_cons, List.sum_cons]
      rw [ih]
      ring
    · rw [if_neg (by simp [h]), if_neg (by simp [h])]
      rw [ih, h]
      ring
    · rw [if_neg (by simp; linarith), if_pos (by simpa using h)]
      rw [List.map_cons, List.sum_cons]
      rw [ih]
      ring

/-- The debtor side's total magnitude is minus the negative nets' sum. -/
theorem partyTotal_debtorsOf (es : List Expense) :
    partyTotal (debtorsOf es) =
      -(((participantsOf es).filter (fun p => netMap es p < 0)).map
        (netMap es)).sum := by
  unfold partyTotal debtorsOf
  rw [List.map_map, ← sum_map_neg]
  apply congrArg
  apply List.map_congr_left
  intro p hp
  have hneg : netMap es p < 0 := by
    have := List.of_mem_filter hp
    simpa using this
  simp [abs_of_neg hneg]

/-- The creditor side's total magnitude is the positive nets' sum. -/
theorem partyTotal_creditorsOf (es : List Expense) :
    partyTotal (creditorsOf es) =
      (((participantsOf es).filter (fun p => 0 < netMap es p)).map
        (netMap es)).sum := by
  unfold partyTotal creditorsOf
  rw [List.map_map]
  rfl

/-- Under well-formed expenses the two sides of the greedy match carry
equal total magnitude. -/
theorem totals_eq (es : List Expense) (hwf : ∀ e ∈ es, WellFormed e) :
    partyTotal (debtorsOf es) = partyTotal (creditorsOf es) := by
  have h0 := sum_net_eq_zero es hwf
  rw [sum_split_sign (participantsOf es) (netMap es)] at h0
  rw [partyTotal_debtorsOf, partyTotal_creditorsOf]
  linarith

/-- The debtor side's names are the negative-net participants. -/
theorem partyNames_debtorsOf (es : List Expense) :
    partyNames (debtorsOf es) =
      (participantsOf es).filter (fun p => netMap es p < 0) := by
  unfold partyNames debtorsOf
  rw [List.map_map]
  exact List.map_id _

/-- The creditor side's names are the positive-net participants. -/
theorem partyNames_creditorsOf (es : List Expense) :
    partyNames (creditorsOf es) =
      (participantsOf es).filter (fun p => 0 < netMap es p) := by
  unfold partyNames creditorsOf
  rw [List.map_map]
  exact List.map_id _

/-- C1 (amended): with well-formed expenses (non-empty splits, payer
amounts summing to the expense amount), the debts out of each net
debtor sum to that debtor's absolute deficit within 0.005 per emitted
debt — not within a flat 0.01, which three-way rounding can exceed —
and symmetrically the debts into each net creditor sum to its positive
net within 0.005 per emitted debt. -/
theorem calculateBalances_conservation (es : List Expense)
    (hwf : ∀ e ∈ es, WellFormed e) (p : String)
    (hp : p ∈ participantsOf es) :
    (netMap es p < 0 →
      |debtSumFrom p (calculateBalances es) - abs (netMap es p)| ≤
        (debtCountFrom p (calculateBalances es) : ℚ) / 200) ∧
    (0 < netMap es p →
      |debtSumTo p (calculateBalances es) - netMap es p| ≤
        (debtCountTo p (calculateBalances es) : ℚ) / 200) := by
  have hes : es ≠ [] := by
    intro h
    subst h
    simp [participantsOf] at hp
  have hperm_d :
      (sortByAmountDesc (debtorsOf es)).Perm (debtorsOf es) :=
    List.mergeSort_perm _ _
  have hperm_c :
      (sortByAmountDesc (creditorsOf es)).Perm (creditorsOf es) :=
    List.mergeSort_perm _ _
  have hpermn_d :
      (partyNames (sortByAmountDesc (debtorsOf es))).Perm
        (partyNames (debtorsOf es)) := hperm_d.map _
  have hpermn_c :
      (partyNames (sortByAmountDesc (creditorsOf es))).Perm
        (partyNames (creditorsOf es)) := hperm_c.map _
  have hnd : (partyNames (sortByAmountDesc (debtorsOf es))).Nodup := by
    rw [hpermn_d.nodup_iff, partyNames_debtorsOf]
    exact (participantsOf_nodup es).filter _
  have hnc : (partyNames (sortByAmountDesc (creditorsOf es))).Nodup := by
    rw [hpermn_c.nodup_iff, partyNames_creditorsOf]
    exact (participantsOf_nodup es).filter _
  have hdisj :
      ∀ q ∈ partyNames (sortByAmountDesc (debtorsOf es)),
        q ∉ partyNames (sortByAmountDesc (creditorsOf es)) := by
    intro q hq hq'
    rw [hpermn_d.mem_iff, partyNames_debtorsOf, List.mem_filter] at hq
    rw [hpermn_c.mem_iff, partyNames_creditorsOf, List.mem_filter] at hq'
    have h1 : netMap es q < 0 := by simpa using hq.2
    have h2 : 0 < netMap es q := by simpa using hq'.2
    linarith
  have hpos_d : ∀ x ∈ sortByAmountDesc (debtorsOf es), 0 < x.amount := by
    intro x hx
    rw [hperm_d.mem_iff] at hx
    unfold debtorsOf at hx
    rw [List.mem_map] at hx
    obtain ⟨q, hq, rfl⟩ := hx
    have : netMap es q < 0 := by simpa using (List.of_mem_filter hq)
    simpa using abs_pos.mpr (ne_of_lt this)
  have hpos_c : ∀ x ∈ sortByAmountDesc (creditorsOf es), 0 < x.amount := by
    intro x hx
    rw [hperm_c.mem_iff] at hx
    unfold creditorsOf at hx
    rw [List.mem_map] at hx
    obtain ⟨q, hq, rfl⟩ := hx
    simpa using (List.of_mem_filter hq)
  have htot :
      partyTotal (sortByAmountDesc (debtorsOf es)) =
        partyTotal (sortByAmountDesc (creditorsOf es)) := by
    unfold partyTotal
    rw [(hperm_d.map (·.amount)).sum_eq, (hperm_c.map (·.amount)).sum_eq]
    exact totals_eq es hwf
  have hmain := settleLoop_conservation _ _ hnd hnc hdisj hpos_d hpos_c htot
  have hcb :
      calculateBalances es =
        settleLoop (sortByAmountDesc (debtorsOf es))
          (sortByAmountDesc (creditorsOf es)) := by
    unfold calculateBalances
    rw [if_neg hes]
  constructor
  · intro hneg
    have hmem : (⟨p, |netMap es p|⟩ : Party) ∈ debtorsOf es := by
      unfold debtorsOf
      rw [List.mem_map]
      exact ⟨p, List.mem_filter.mpr ⟨hp, by simpa using hneg⟩, rfl⟩
    have := hmain.1 ⟨p, |netMap es p|⟩ (hperm_d.mem_iff.mpr hmem)
    rw [hcb]
    exact this
  · intro hposn
    have hmem : (⟨p, netMap es p⟩ : Party) ∈ creditorsOf es := by
      unfold creditorsOf
      rw [List.mem_map]
      exact ⟨p, List.mem_filter.mpr ⟨hp, by simpa using hposn⟩, rfl⟩
    have := hmain.2 ⟨p, netMap es p⟩ (hperm_c.mem_iff.mpr hmem)
    rw [hcb]
    exact this

/-- Witness: in the 300-split-three-ways scenario, B is a net debtor
and the conservation bound holds for B. -/
theorem calculateBalances_conservation_witness :
    (∀ e ∈ exScenario1, WellFormed e) ∧
    ("B" ∈ participantsOf exScenario1) ∧
    netMap exScenario1 "B" < 0 ∧
    |debtSumFrom "B" (calculateBalances exScenario1) -
      abs (netMap exScenario1 "B")| ≤
      (debtCountFrom "B" (calculateBalances exScenario1) : ℚ) / 200 := by
  have hwf : ∀ e ∈ exScenario1, WellFormed e := by
    intro e he
    rw [exScenario1, List.mem_singleton] at he
    subst he
    constructor
    · simp
    · norm_num
  have hmem : "B" ∈ participantsOf exScenario1 := by decide
  have hneg : netMap exScenario1 "B" < 0 := by
    have : netMap exScenario1 "B" = -100 := by
      simp [netMap, applyExpense, exScenario1]; norm_num
    rw [this]; norm_num
  exact ⟨hwf, hmem, hneg,
    (calculateBalances_conservation exScenario1 hwf "B" hmem).1 hneg⟩

/-- Participant universe of the rounding example. -/
theorem exRounding_parts :
    participantsOf exRounding = ["a", "b", "c", "d"] := by decide

/-- Net position of a in the rounding example. -/
theorem exRounding_netA : netMap exRounding "a" = 1 / 8 := by
  simp [netMap, applyExpense, exRounding]

/-- Net position of b in the rounding example. -/
theorem exRounding_netB : netMap exRounding "b" = 1 / 8 := by
  simp [netMap, applyExpense, exRounding]

/-- Net position of c in the rounding example. -/
theorem exRounding_netC : netMap exRounding "c" = 1 / 8 := by
  simp [netMap, applyExpense, exRounding]

/-- Net position of d in the rounding example. -/
theorem exRounding_netD : netMap exRounding "d" = -(3 / 8) := by
  simp [netMap, applyExpense, exRounding]; norm_num

/-- Debtor list of the rounding example. -/
theorem exRounding_debtors : debtorsOf exRounding = [⟨"d", 3 / 8⟩] := by
  simp only [debtorsOf, exRounding_parts, List.filter_cons, List.filter_nil,
    exRounding_netA, exRounding_netB, exRounding_netC, exRounding_netD]
  norm_num [exRounding_netD]

/-- Creditor list of the rounding example. -/
theorem exRounding_creditors :
    creditorsOf exRounding = [⟨"a", 1 / 8⟩, ⟨"b", 1 / 8⟩, ⟨"c", 1 / 8⟩] := by
  simp only [creditorsOf, exRounding_parts, List.filter_cons, List.filter_nil,
    exRounding_netA, exRounding_netB, exRounding_netC, exRounding_netD]
  norm_num [exRounding_netA, exRounding_netB, exRounding_netC]

/-- An eighth rounds up to 0.13 at two decimals. -/
theorem round2_eighth : round2 (1 / 8) = 13 / 100 := by
  rw [round2_eq_of (1 / 8) 13 (by norm_num) (by norm_num)]
  norm_num

/-- Full evaluation of the engine on the rounding example: d's 0.375
deficit is settled by three debts of 0.13 each. -/
theorem exRounding_eval :
    calculateBalances exRounding =
      [⟨"d", "a", 13 / 100, false, none⟩, ⟨"d", "b", 13 / 100, false, none⟩,
        ⟨"d", "c", 13 / 100, false, none⟩] := by
  unfold calculateBalances
  rw [if_neg (by simp [exRounding]), exRounding_debtors, exRounding_creditors]
  have hd : sortByAmountDesc [(⟨"d", 3 / 8⟩ : Party)] = [⟨"d", 3 / 8⟩] :=
    List.mergeSort_singleton _
  have hc : sortByAmountDesc
      [(⟨"a", 1 / 8⟩ : Party), ⟨"b", 1 / 8⟩, ⟨"c", 1 / 8⟩] =
      [⟨"a", 1 / 8⟩, ⟨"b", 1 / 8⟩, ⟨"c", 1 / 8⟩] := by
    apply List.mergeSort_of_sorted
    norm_num
  rw [hd, hc]
  norm_num [settleLoop, remaining, min_def, round2_eighth]
  simp

/-- C1 counterexample: on the rounding example, d's emitted debts sum
to 0.39 against an absolute deficit of 0.375 — the flat 0.01
reconciliation tolerance is violated (the gap is 0.015). -/
theorem calculateBalances_tolerance_violated :
    netMap exRounding "d" < 0 ∧
    ¬(|debtSumFrom "d" (calculateBalances exRounding) -
        abs (netMap exRounding "d")| ≤ 1 / 100) := by
  constructor
  · rw [exRounding_netD]; norm_num
  · rw [exRounding_eval, exRounding_netD]
    unfold debtSumFrom
    norm_num
    rw [abs_of_nonneg (by norm_num : (0 : ℚ) ≤ 3 / 8),
      abs_of_nonneg (by norm_num : (0 : ℚ) ≤ 39 / 100 - 3 / 8)]
    norm_num

/-- Witness: a debt actually emitted on the sub-cent input satisfies
the nonnegativity-and-unsettled conclusion. -/
theorem calculateBalances_nonneg_unsettled_witness :
    ((⟨"B", "A", 0, false, none⟩ : Balance) ∈ calculateBalances exTiny) ∧
    (0 ≤ (⟨"B", "A", 0, false, none⟩ : Balance).amount ∧
      (⟨"B", "A", 0, false, none⟩ : Balance).isSettled = false) := by
  have hmem :
      (⟨"B", "A", 0, false, none⟩ : Balance) ∈ calculateBalances exTiny := by
    rw [exTiny_eval]
    simp
  exact ⟨hmem, calculateBalances_nonneg_unsettled exTiny _ hmem⟩
